import Mathlib

/-!
Verification of the `orchestra` learning core (experience store, reward
function, feature encoders, training split, entropy diagnostic).

Python strings manipulated by the time parsers are modelled as `List Char`
with explicit primitives mirroring `str.lower`, `str.strip`, `in`
(substring test) and `str.replace`.  A failed call to Python's `float`
constructor (a raised `ValueError`) is modelled as `none`; `parseFloatCore`
covers the plain decimal core of the `float` grammar (optional sign,
digits, optional fractional part), which is the only part the repository's
inputs exercise.
-/

namespace Orchestra

/-- Python `str.isspace` test for one character, as used by `str.strip`. -/
def ws (c : Char) : Bool := c.isWhitespace

/-- Python `str.lower` (character-wise). -/
def lowerL (l : List Char) : List Char := l.map Char.toLower

/-- Python `str.strip`: drop leading and trailing whitespace. -/
def strip (l : List Char) : List Char :=
  ((l.dropWhile ws).reverse.dropWhile ws).reverse

/-- Python substring test `(c :: cs) in l`. -/
def containsP (c : Char) (cs : List Char) : List Char → Bool
  | [] => false
  | x :: t => (c :: cs).isPrefixOf (x :: t) || containsP c cs t

/-- Worker for `replaceP`; the fuel argument makes the recursion
structural so that terms reduce inside the kernel. -/
def replaceGo (c : Char) (cs : List Char) : ℕ → List Char → List Char
  | 0, _ => []
  | _ + 1, [] => []
  | f + 1, x :: t =>
    if (c :: cs).isPrefixOf (x :: t) then replaceGo c cs f (t.drop cs.length)
    else x :: replaceGo c cs f t

/-- Python `l.replace(c :: cs, "")`: remove every occurrence of the
pattern, scanning left to right. -/
def replaceP (c : Char) (cs : List Char) (l : List Char) : List Char :=
  replaceGo c cs l.length l

/-- Python substring test between two strings (`s in t`). -/
def containsSub (t s : String) : Bool :=
  match s.data with
  | [] => true
  | c :: cs => containsP c cs t.data

/-- Numeric value of a digit string. -/
def digitsToNat (l : List Char) : ℕ :=
  l.foldl (fun acc ch => 10 * acc + (ch.toNat - 48)) 0

/-- Decimal core of Python's `float` grammar on an already-stripped string:
optional sign, integer digits, optional `.` and fraction digits; at least
one digit overall.  `none` models a raised `ValueError`. -/
def parseFloatCore (l : List Char) : Option ℚ :=
  let signBody : Bool × List Char :=
    match l with
    | '-' :: r => (true, r)
    | '+' :: r => (false, r)
    | r => (false, r)
  let body := signBody.2
  let ip := body.takeWhile Char.isDigit
  let rest := body.dropWhile Char.isDigit
  let val : Option ℚ :=
    match rest with
    | [] => if ip.isEmpty then none else some (digitsToNat ip)
    | '.' :: fp =>
      if fp.all Char.isDigit && (!ip.isEmpty || !fp.isEmpty) then
        some ((digitsToNat ip : ℚ) + (digitsToNat fp : ℚ) / (10 : ℚ) ^ fp.length)
      else none
    | _ => none
  val.map (fun v => if signBody.1 then -v else v)

/-- Python `float(s)`: surrounding whitespace is ignored. -/
def parseFloat (l : List Char) : Option ℚ := parseFloatCore (strip l)

/-- `parse_time` from `experience_collector.py` (lines 391-412): lowercase
and strip, then dispatch on the substrings `min`, `hour`, `day` in that
order; the fallback is 60 minutes.  `none` models the `ValueError` raised
when the remaining text is not numeric. -/
def parseTimeL (s : List Char) : Option ℚ :=
  let t := strip (lowerL s)
  if containsP 'm' ['i', 'n'] t then
    parseFloat (strip (replaceP 'm' ['i', 'n'] t))
  else if containsP 'h' ['o', 'u', 'r'] t then
    (parseFloat (strip (replaceP 'h' ['o', 'u', 'r']
      (replaceP 'h' ['o', 'u', 'r', 's'] t)))).map (fun h => h * 60)
  else if containsP 'd' ['a', 'y'] t then
    (parseFloat (strip (replaceP 'd' ['a', 'y']
      (replaceP 'd' ['a', 'y', 's'] t)))).map (fun d => d * 8 * 60)
  else some 60

/-- `parse_time` on a Lean `String`. -/
def parse_time (s : String) : Option ℚ := parseTimeL s.data

/-- The inline time parsing of `extract_state_vector` in `train.py`
(lines 75-82): dispatches on `hour` before `min`, has no `day` branch, and
does not strip before the substring tests. -/
def inlineTimeL (s : List Char) : Option ℚ :=
  let u := lowerL s
  if containsP 'h' ['o', 'u', 'r'] u then
    (parseFloat (strip (replaceP 'h' ['o', 'u', 'r']
      (replaceP 'h' ['o', 'u', 'r', 's'] u)))).map (fun h => h * 60)
  else if containsP 'm' ['i', 'n'] u then
    parseFloat (strip (replaceP 'm' ['i', 'n'] u))
  else some 60

/-- Inline time parsing on a Lean `String`. -/
def inlineParseTime (s : String) : Option ℚ := inlineTimeL s.data

/-! ## JSON values and the experience store -/

/-- JSON values, as produced by `json.loads` on one line of the experience
buffer.  `.obj` carries the parsed dict as an association list; dicts
produced by `json.loads` have unique keys, so lookup order is immaterial. -/
inductive JVal where
  | null : JVal
  | bool : Bool → JVal
  | num : ℚ → JVal
  | str : String → JVal
  | arr : List JVal → JVal
  | obj : List (String × JVal) → JVal

/-- Dict lookup (`d.get(key)` returning `None` on a missing key). -/
def objGet : List (String × JVal) → String → Option JVal
  | [], _ => none
  | (k, v) :: rest, key => if k == key then some v else objGet rest key

/-- Python truthiness of a JSON value. -/
def jTruthy : JVal → Bool
  | .null => false
  | .bool b => b
  | .num q => q != 0
  | .str s => !s.isEmpty
  | .arr xs => !xs.isEmpty
  | .obj fs => !fs.isEmpty

/-- Python `v == t` for a string literal `t`: true only when `v` is the
equal string. -/
def jIsStr (v : JVal) (t : String) : Bool :=
  match v with
  | .str s => s == t
  | _ => false

/-- Numeric view used by `<` comparisons: Python compares `float` with
`int` and `bool` (a subtype of `int`); comparing any other value with a
number raises `TypeError`, modelled as `none`. -/
def jAsNum : JVal → Option ℚ
  | .num q => some q
  | .bool b => some (if b then 1 else 0)
  | _ => none

/-- The `Experience` dataclass of `experience_collector.py`.  The dataclass
performs no validation, so every field holds an arbitrary JSON value. -/
structure Experience where
  state : JVal
  action : JVal
  reward : JVal
  next_state : JVal
  done : JVal
  metadata : JVal
  timestamp : JVal

/-- `Experience.to_dict` / the JSON object written for one record
(field order is the dataclass declaration order). -/
def expToJVal (e : Experience) : JVal :=
  .obj [("state", e.state), ("action", e.action), ("reward", e.reward),
        ("next_state", e.next_state), ("done", e.done),
        ("metadata", e.metadata), ("timestamp", e.timestamp)]

/-- Arguments of one `ExperienceCollector.collect` call, with `now` the
timestamp `datetime.now().isoformat()` assigned at collection time. -/
structure CollectArgs where
  state : JVal
  action : JVal
  reward : ℚ
  next_state : Option JVal
  done : Bool
  metadata : Option (List (String × JVal))
  now : String

/-- `collect` (lines 58-94): builds the record; `metadata or {}` maps a
missing (or empty) metadata dict to `{}`. -/
def collect (a : CollectArgs) : Experience :=
  { state := a.state
    action := a.action
    reward := .num a.reward
    next_state := (a.next_state).getD .null
    done := .bool a.done
    metadata := .obj ((a.metadata).getD [])
    timestamp := .str a.now }

/-- `_append_to_buffer` (lines 124-127): one JSON line is appended to the
backing file.  The file is modelled as the list of its lines, each already
passed through `json.loads` (`none` = a line that fails to parse). -/
def appendToBuffer (e : Experience) (file : List (Option JVal)) :
    List (Option JVal) :=
  file ++ [some (expToJVal e)]

/-- Folding `collect` over a list of raw records (`collect_batch`). -/
def collectAll (as : List CollectArgs) (file : List (Option JVal)) :
    List (Option JVal) :=
  as.foldl (fun f a => appendToBuffer (collect a) f) file

/-- Outcome of processing one line inside `load_experiences`: the line is
silently skipped (`json.JSONDecodeError`, `KeyError`, or a filter
mismatch), kept, or raises an exception the loop does not catch
(`AttributeError`/`TypeError` on a line whose payload is not a dict or
whose reward is not comparable with a number). -/
inductive LineResult where
  | skip : LineResult
  | keep : Experience → LineResult
  | err : LineResult

/-- Reconstruction of an `Experience` from a parsed line (lines 169-179):
`state`, `action`, `reward`, `done` are mandatory (`KeyError` → skip);
`next_state`, `metadata`, `timestamp` fall back to `None`, `{}` and
`datetime.now().isoformat()` (the `now` argument). -/
def reconstructLine (now : String) (fields : List (String × JVal)) :
    LineResult :=
  match objGet fields "state", objGet fields "action",
      objGet fields "reward", objGet fields "done" with
  | some st, some ac, some rw, some dn =>
    .keep { state := st, action := ac, reward := rw,
            next_state := (objGet fields "next_state").getD .null,
            done := dn,
            metadata := (objGet fields "metadata").getD (.obj []),
            timestamp := (objGet fields "timestamp").getD (.str now) }
  | _, _, _, _ => .skip

/-- The `min_reward` filter (line 166): Python's `if min_reward and ...`
makes the filter inactive when `min_reward` is `None` *or zero*; an
incomparable reward value raises `TypeError`. -/
def rewardFilterStep (mr : Option ℚ) (now : String)
    (fields : List (String × JVal)) : LineResult :=
  match mr with
  | some m =>
    if m ≠ 0 then
      match jAsNum ((objGet fields "reward").getD (.num 0)) with
      | some q => if q < m then .skip else reconstructLine now fields
      | none => .err
    else reconstructLine now fields
  | none => reconstructLine now fields

/-- `exp_dict.get('metadata', {}).get(key)`; `none` models the
`AttributeError` raised when the stored metadata is not a dict. -/
def metaFieldLookup (fields : List (String × JVal)) (key : String) :
    Option (Option JVal) :=
  match (objGet fields "metadata").getD (.obj []) with
  | .obj mf => some (objGet mf key)
  | _ => none

/-- The `domain` filter (line 164) followed by the `min_reward` filter.
Python's `if domain and ...` leaves the filter inactive for `None` and for
the falsy empty string. -/
def domainFilterStep (dom : Option String) (mr : Option ℚ) (now : String)
    (fields : List (String × JVal)) : LineResult :=
  match dom with
  | some d =>
    if d.isEmpty then rewardFilterStep mr now fields
    else
      match metaFieldLookup fields "domain" with
      | none => .err
      | some v => if jIsStr (v.getD .null) d then rewardFilterStep mr now fields
                  else .skip
  | none => rewardFilterStep mr now fields

/-- The `task_type` filter (line 162) followed by the remaining filters.
Python's `if task_type and ...` leaves the filter inactive for `None` and
for the falsy empty string. -/
def taskFilterStep (tt dom : Option String) (mr : Option ℚ) (now : String)
    (fields : List (String × JVal)) : LineResult :=
  match tt with
  | some t =>
    if t.isEmpty then domainFilterStep dom mr now fields
    else
      match metaFieldLookup fields "task_type" with
      | none => .err
      | some v => if jIsStr (v.getD .null) t then domainFilterStep dom mr now fields
                  else .skip
  | none => domainFilterStep dom mr now fields

/-- Processing of one line of the buffer inside `load_experiences`
(lines 153-183).  A line that fails `json.loads` is skipped; a line whose
payload is not a dict raises (`TypeError`/`AttributeError` on field
access), which the `except (json.JSONDecodeError, KeyError)` clause does
not catch. -/
def processLine (tt dom : Option String) (mr : Option ℚ) (now : String) :
    Option JVal → LineResult
  | none => .skip
  | some (.obj fields) => taskFilterStep tt dom mr now fields
  | some _ => .err

/-- The early-exit test (line 155): Python's `if limit and len(...) >= limit`
treats `limit=None` and `limit=0` as "no limit". -/
def limitHit (limit : Option ℕ) (n : ℕ) : Bool :=
  match limit with
  | some k => decide (k ≠ 0) && decide (k ≤ n)
  | none => false

/-- The reading loop of `load_experiences`, accumulating kept records in
file order.  `Except.error ()` models an uncaught exception aborting the
whole call. -/
def loadLoop (limit : Option ℕ) (tt dom : Option String) (mr : Option ℚ)
    (now : String) : List (Option JVal) → List Experience →
    Except Unit (List Experience)
  | [], acc => .ok acc
  | line :: rest, acc =>
    if limitHit limit acc.length then .ok acc
    else
      match processLine tt dom mr now line with
      | .err => .error ()
      | .skip => loadLoop limit tt dom mr now rest acc
      | .keep e => loadLoop limit tt dom mr now rest (acc ++ [e])

/-- `load_experiences(limit, task_type, domain, min_reward)` on a buffer
file given as its list of parsed lines; `now` is the clock value used for
the `timestamp` fallback. -/
def load_experiences (limit : Option ℕ) (tt dom : Option String)
    (mr : Option ℚ) (now : String) (file : List (Option JVal)) :
    Except Unit (List Experience) :=
  loadLoop limit tt dom mr now file []

/-! ## Reward function -/

/-- The `outcome` dict consumed by `compute_reward_from_outcome`.
Boolean fields record the truthiness of `outcome.get(key, False)`;
`Option` fields record presence of the key (`.get` default applied in the
function, as in the source). -/
structure Outcome where
  success : Bool
  actual_time : Option ℚ
  resources_used : List String
  minimum_resources : Option ℚ
  error_count : Option ℚ
  user_modifications : Option ℚ
  safety_violations : Bool

/-- The `context` dict consumed by `compute_reward_from_outcome`. -/
structure Context where
  estimated_time : Option String
  confidence : Option ℚ

/-- `compute_reward_from_outcome` (`experience_collector.py` lines
328-388), accumulating the seven contributions in source order.  `none`
models the `ValueError` propagating out of `parse_time`. -/
def compute_reward_from_outcome (o : Outcome) (c : Context) : Option ℚ := do
  let r₁ : ℚ := if o.success then 100 else -100
  let r₂ : ℚ ←
    if o.success then do
      let estimated ← parse_time ((c.estimated_time).getD "1 hour")
      let actual := (o.actual_time).getD estimated
      let efficiency := min (estimated / max actual 1) 2
      pure (efficiency * 20)
    else pure 0
  let used : ℚ := o.resources_used.length
  let minimum := (o.minimum_resources).getD used
  let r₃ : ℚ := if used ≤ minimum then 10 else -((used - minimum) * 5)
  let errorCount := (o.error_count).getD 0
  let r₄ : ℚ := if errorCount = 0 then 15 else -(errorCount * 10)
  let userMods := (o.user_modifications).getD 0
  let r₅ : ℚ := if userMods = 0 then 10 else -(userMods * 5)
  let r₆ : ℚ := if !o.safety_violations then 10 else -50
  let confidence := (c.confidence).getD (1 / 2)
  pure (r₁ + r₂ + r₃ + r₄ + r₅ + r₆ + confidence * 5)

/-! ## Feature encoders (`train.py`) -/

/-- Task-type vocabulary (`train.py` line 53). -/
def task_types : List String := ["feature", "bug", "refactor", "test", "docs", "review"]

/-- Domain vocabulary (line 58). -/
def domains : List String := ["frontend", "backend", "database", "security", "testing"]

/-- Complexity vocabulary (line 63). -/
def complexity_levels : List String := ["simple", "medium", "complex"]

/-- Risk vocabulary (line 69). -/
def risk_levels : List String := ["low", "medium", "high"]

/-- Skill vocabulary (lines 103-107). -/
def all_skills : List String :=
  ["security", "backend", "frontend", "database", "testing",
   "api-design", "architecture", "devops", "performance", "code-quality"]

/-- Agent vocabulary (lines 125-128). -/
def all_agents : List String :=
  ["feature-creator", "bug-fixer", "code-refactorer", "pr-reviewer",
   "security-specialist"]

/-- Strategy vocabulary (line 133). -/
def strategies : List String := ["direct", "sequential", "parallel", "coordinated"]

/-- `[1.0 if v == t else 0.0 for t in opts]`. -/
def oneHotEq (v : JVal) (opts : List String) : List ℚ :=
  opts.map (fun t => if jIsStr v t then 1 else 0)

/-- `[1.0 if i == idx else 0.0 for i in range(n)]`. -/
def oneHotIdx (n idx : ℕ) : List ℚ :=
  (List.range n).map (fun i => if i = idx then 1 else 0)

/-- `opts.index(v) if v in opts else d`. -/
def idxOrD (opts : List String) (v : JVal) (d : ℕ) : ℕ :=
  match v with
  | .str s => if opts.contains s then opts.findIdx (· == s) else d
  | _ => d

/-- `while len(features) < n: features.append(0.0)` followed by
`features[:n]`. -/
def padTo (l : List ℚ) (n : ℕ) : List ℚ :=
  (l ++ List.replicate (n - l.length) 0).take n

/-- `extract_state_vector` (`train.py` lines 42-90).  `none` models the
exceptions the function can raise: `AttributeError` when `metadata` is not
a dict or `estimated_time` is not a string, and `ValueError` from `float`
inside the inline time parsing. -/
def extract_state_vector (e : Experience) : Option (List ℚ) := do
  let mf ←
    match e.metadata with
    | .obj mf => some mf
    | _ => none
  let task_type := (objGet mf "task_type").getD (.str "feature")
  let f₁ := oneHotEq task_type task_types
  let domain := (objGet mf "domain").getD (.str "backend")
  let f₂ := oneHotEq domain domains
  let complexity := (objGet mf "complexity").getD (.str "medium")
  let f₃ := oneHotIdx 3 (idxOrD complexity_levels complexity 1)
  let risk := (objGet mf "risk_level").getD (.str "low")
  let f₄ := oneHotIdx 3 (idxOrD risk_levels risk 0)
  let timeVal := (objGet mf "estimated_time").getD (.str "1 hour")
  let timeStr ←
    match timeVal with
    | .str s => some s
    | _ => none
  let timeMins ← inlineParseTime timeStr
  let f₅ := [min (timeMins / 480) 1]
  pure (padTo (f₁ ++ f₂ ++ f₃ ++ f₄ ++ f₅) 50)

/-- The domain→skill inference of `extract_action_vector`
(lines 110-121): when `skills_used` is falsy and `domain` truthy, four
literal domains supply a default skill list; otherwise `skills_used` is
kept as stored. -/
def skillsUsedEffective (mf : List (String × JVal)) : JVal :=
  let skills_used := (objGet mf "skills_used").getD (.arr [])
  let domain := (objGet mf "domain").getD (.str "")
  if !jTruthy skills_used && jTruthy domain then
    if jIsStr domain "backend" then .arr [.str "backend", .str "api-design"]
    else if jIsStr domain "frontend" then .arr [.str "frontend"]
    else if jIsStr domain "database" then .arr [.str "database"]
    else if jIsStr domain "security" then .arr [.str "security"]
    else skills_used
  else skills_used

/-- Python `s in container` for a string `s`: list and dict membership,
substring test on a string; any other container raises `TypeError`
(modelled as `none`). -/
def jMem (s : String) (container : JVal) : Option Bool :=
  match container with
  | .arr xs => some (xs.any (fun v => jIsStr v s))
  | .str t => some (containsSub t s)
  | .obj fs => some (fs.any (fun p => p.1 == s))
  | _ => none

/-- A list comprehension whose body may raise (left to right, first
exception aborts). -/
def mapOpt (f : α → Option β) : List α → Option (List β)
  | [] => some []
  | x :: xs => do
    let y ← f x
    let ys ← mapOpt f xs
    pure (y :: ys)

/-- `extract_action_vector` (`train.py` lines 93-142).  `none` models
`AttributeError` on a non-dict metadata and `TypeError` when a membership
test hits a non-container value. -/
def extract_action_vector (e : Experience) : Option (List ℚ) := do
  let mf ←
    match e.metadata with
    | .obj mf => some mf
    | _ => none
  let skills := skillsUsedEffective mf
  let f₁ ← mapOpt
    (fun s => (jMem s skills).map (fun b => if b then (1 : ℚ) else 0)) all_skills
  let agents := (objGet mf "agents_used").getD (.arr [])
  let f₂ ← mapOpt
    (fun s => (jMem s agents).map (fun b => if b then (1 : ℚ) else 0)) all_agents
  let strategy := (objGet mf "strategy").getD (.str "direct")
  let f₃ := oneHotIdx 4 (idxOrD strategies strategy 0)
  pure (padTo (f₁ ++ f₂ ++ f₃) 30)

/-! ## Training split (`train.py` lines 184-190) -/

/-- Python `int()` applied to a float: truncation toward zero. -/
def pyInt (q : ℚ) : ℤ := if 0 ≤ q then ⌊q⌋ else ⌈q⌉

/-- Python slice `xs[:k]` for an arbitrary (possibly negative) index. -/
def pySliceTo (xs : List α) (k : ℤ) : List α :=
  if 0 ≤ k then xs.take k.toNat else xs.take (xs.length - (-k).toNat)

/-- Python slice `xs[k:]` for an arbitrary (possibly negative) index. -/
def pySliceFrom (xs : List α) (k : ℤ) : List α :=
  if 0 ≤ k then xs.drop k.toNat else xs.drop (xs.length - (-k).toNat)

/-- The train/validation split of `train` (`train.py` lines 184-187):
`n_val = int(len(experiences) * validation_split)`,
`train_exps = experiences[:-n_val]`, `val_exps = experiences[-n_val:]`. -/
def trainValSplit (xs : List α) (f : ℚ) : List α × List α :=
  let nVal := pyInt ((xs.length : ℚ) * f)
  (pySliceTo xs (-nVal), pySliceFrom xs (-nVal))

/-! ## Claim-side definitions -/

/-- Restatement of the claimed inclusion rule of `load_experiences` with no
filters, written from the specification's words: a line is included exactly
when it parses and carries the four required keys; `next_state` defaults to
null, `metadata` to an empty mapping, `timestamp` to the load-time clock. -/
def includedLineSpec (now : String) (line : Option JVal) : Option Experience :=
  match line with
  | some (.obj fields) =>
    match objGet fields "state", objGet fields "action",
        objGet fields "reward", objGet fields "done" with
    | some st, some ac, some rw, some dn =>
      some { state := st, action := ac, reward := rw,
             next_state := (objGet fields "next_state").getD .null,
             done := dn,
             metadata := (objGet fields "metadata").getD (.obj []),
             timestamp := (objGet fields "timestamp").getD (.str now) }
    | _, _, _, _ => none
  | _ => none

/-- The stored value supports Python's `in` test (it is a list, a string or
a dict); other values make a membership test raise `TypeError`. -/
def memOK (v : JVal) : Prop :=
  match v with
  | .arr _ => True
  | .str _ => True
  | .obj _ => True
  | _ => False

/-- The (defaulted) `estimated_time` entry is a string that the inline
time parsing of `extract_state_vector` accepts. -/
def strTimeParses (v : JVal) : Prop :=
  match v with
  | .str s => (inlineParseTime s).isSome = true
  | _ => False

/-! ## Lemmas -/

theorem replaceGo_nil (c : Char) (cs : List Char) (f : ℕ) :
    replaceGo c cs f [] = [] := by cases f <;> rfl

theorem replaceGo_fuel (c : Char) (cs : List Char) :
    ∀ f₁ f₂ l, l.length ≤ f₁ → l.length ≤ f₂ →
      replaceGo c cs f₁ l = replaceGo c cs f₂ l := by
  intro f₁
  induction f₁ using Nat.strong_induction_on with
  | _ f₁ ih =>
    intro f₂ l h₁ h₂
    cases l with
    | nil => rw [replaceGo_nil, replaceGo_nil]
    | cons x t =>
      cases f₁ with
      | zero => simp at h₁
      | succ g₁ =>
        cases f₂ with
        | zero => simp at h₂
        | succ g₂ =>
          simp only [List.length_cons, Nat.succ_le_succ_iff] at h₁ h₂
          simp only [replaceGo]
          by_cases hp : (c :: cs).isPrefixOf (x :: t)
          · simp only [hp, if_true]
            refine ih g₁ (Nat.lt_succ_self _) g₂ _ ?_ ?_ <;>
              · rw [List.length_drop]; omega
          · simp only [hp, if_false]
            exact congrArg (x :: ·) (ih g₁ (Nat.lt_succ_self _) g₂ t h₁ h₂)

theorem replaceP_nil (c : Char) (cs : List Char) : replaceP c cs [] = [] := rfl

theorem replaceP_cons (c : Char) (cs : List Char) (x : Char) (t : List Char) :
    replaceP c cs (x :: t) =
      if (c :: cs).isPrefixOf (x :: t) then replaceP c cs (t.drop cs.length)
      else x :: replaceP c cs t := by
  show replaceGo c cs (t.length + 1) (x :: t) = _
  by_cases hp : (c :: cs).isPrefixOf (x :: t)
  · rw [if_pos hp, replaceGo, if_pos hp]
    exact replaceGo_fuel c cs _ _ _ (by rw [List.length_drop]; omega) le_rfl
  · rw [if_neg hp, replaceGo, if_neg hp]
    rfl

/-- The sample values of `parse_time` listed in the design notes. -/
theorem parse_time_samples :
    parse_time "30 min" = some 30 ∧ parse_time "1 hour" = some 60 ∧
    parse_time "2 hours" = some 120 ∧ parse_time "1 day" = some 480 ∧
    parse_time "garbage" = some 60 := by
  refine ⟨?_, ?_, ?_, ?_, ?_⟩ <;> with_unfolding_all decide

theorem jMem_isSome (s : String) (v : JVal) (h : memOK v) : (jMem s v).isSome := by
  cases v with
  | arr xs => rfl
  | str t => rfl
  | obj fs => rfl
  | null => exact h.elim
  | bool b => exact h.elim
  | num q => exact h.elim

theorem padTo50_take6 (a₁ a₂ a₃ a₄ a₅ a₆ : ℚ) (rest : List ℚ) :
    (padTo (a₁ :: a₂ :: a₃ :: a₄ :: a₅ :: a₆ :: rest) 50).take 6 =
      [a₁, a₂, a₃, a₄, a₅, a₆] := rfl

theorem padTo50_drop6_take5 (a₁ a₂ a₃ a₄ a₅ a₆ b₁ b₂ b₃ b₄ b₅ : ℚ)
    (rest : List ℚ) :
    ((padTo (a₁ :: a₂ :: a₃ :: a₄ :: a₅ :: a₆ :: b₁ :: b₂ :: b₃ :: b₄ :: b₅ :: rest) 50).drop 6).take 5 =
      [b₁, b₂, b₃, b₄, b₅] := rfl

theorem padTo_length (l : List ℚ) (n : ℕ) : (padTo l n).length = n := by
  simp only [padTo, List.length_take, List.length_append, List.length_replicate]
  omega

theorem mapOpt_length (f : α → Option β) :
    ∀ l res, mapOpt f l = some res → res.length = l.length := by
  intro l
  induction l with
  | nil =>
    intro res h
    simp only [mapOpt, Option.some.injEq] at h
    subst h; rfl
  | cons x xs ih =>
    intro res h
    simp only [mapOpt, Option.bind_eq_bind] at h
    cases hx : f x <;> rw [hx] at h
    · simp at h
    · cases hxs : mapOpt f xs <;> rw [hxs] at h
      · simp at h
      · simp only [Option.some_bind, Option.pure_def, Option.some.injEq] at h
        subst h
        simp [ih _ hxs]

theorem mapOpt_isSome (f : α → Option β) :
    ∀ l, (∀ x ∈ l, (f x).isSome) → (mapOpt f l).isSome := by
  intro l
  induction l with
  | nil => intro _; simp [mapOpt]
  | cons x xs ih =>
    intro h
    have hx := h x (by simp)
    have hxs := ih (fun y hy => h y (by simp [hy]))
    cases hfx : f x
    · rw [hfx] at hx; simp at hx
    · cases hmx : mapOpt f xs
      · rw [hmx] at hxs; simp at hxs
      · simp [mapOpt, hfx, hmx]

/-- Structure of a successfully computed state vector: four categorical
blocks followed by the time scalar, zero-padded to 50. -/
theorem extract_state_vector_shape (e : Experience) (mf : List (String × JVal))
    (hm : e.metadata = .obj mf) (v : List ℚ)
    (hv : extract_state_vector e = some v) :
    ∃ tm : ℚ,
      v = padTo (oneHotEq ((objGet mf "task_type").getD (.str "feature")) task_types
        ++ oneHotEq ((objGet mf "domain").getD (.str "backend")) domains
        ++ oneHotIdx 3 (idxOrD complexity_levels ((objGet mf "complexity").getD (.str "medium")) 1)
        ++ oneHotIdx 3 (idxOrD risk_levels ((objGet mf "risk_level").getD (.str "low")) 0)
        ++ [min (tm / 480) 1]) 50 ∧
      (∀ s, (objGet mf "estimated_time").getD (.str "1 hour") = .str s →
        inlineParseTime s = some tm) := by
  simp only [extract_state_vector, hm, Option.bind_eq_bind, Option.some_bind] at hv
  cases hts : (objGet mf "estimated_time").getD (.str "1 hour") <;> rw [hts] at hv <;>
    try simp at hv
  case str s =>
    cases hpt : inlineParseTime s <;> rw [hpt] at hv
    · simp at hv
    case some tm =>
      simp only [Option.some_bind, Option.pure_def, Option.some.injEq] at hv
      refine ⟨tm, hv.symm, ?_⟩
      intro s' hs'
      injection hs' with hss
      subst hss
      exact hpt

/-- Structure of a successfully computed action vector. -/
theorem extract_action_vector_shape (e : Experience) (v : List ℚ)
    (hv : extract_action_vector e = some v) :
    ∃ f₁ f₂ : List ℚ, f₁.length = 10 ∧ f₂.length = 5 ∧
      ∃ idx, v = padTo (f₁ ++ f₂ ++ oneHotIdx 4 idx) 30 := by
  simp only [extract_action_vector, Option.bind_eq_bind] at hv
  cases hm : e.metadata <;> rw [hm] at hv <;> try simp at hv
  case obj mf =>
    cases h1 : mapOpt (fun s => (jMem s (skillsUsedEffective mf)).map
        (fun b => if b then (1 : ℚ) else 0)) all_skills <;> rw [h1] at hv
    · simp at hv
    case some f₁ =>
      cases h2 : mapOpt (fun s => (jMem s ((objGet mf "agents_used").getD (.arr []))).map
          (fun b => if b then (1 : ℚ) else 0)) all_agents <;> rw [h2] at hv
      · simp at hv
      case some f₂ =>
        simp only [Option.some_bind, Option.pure_def, Option.some.injEq] at hv
        refine ⟨f₁, f₂, ?_, ?_,
          idxOrD strategies ((objGet mf "strategy").getD (.str "direct")) 0, ?_⟩
        · rw [mapOpt_length _ _ _ h1]; rfl
        · rw [mapOpt_length _ _ _ h2]; rfl
        · rw [List.append_assoc]; exact hv.symm

theorem char_beq_false {x w : Char} (hx : ws x = false) (hw : ws w = true) :
    (x == w) = false := by
  rw [beq_eq_false_iff_ne]
  intro h
  rw [h, hw] at hx
  exact Bool.noConfusion hx

theorem isPrefixOf_append_ws :
    ∀ (p x b : List Char), (∀ ch ∈ p, ws ch = false) →
      (∀ ch ∈ b, ws ch = true) →
      List.isPrefixOf p (x ++ b) = List.isPrefixOf p x := by
  intro p
  induction p with
  | nil => intro x b _ _; simp [List.isPrefixOf]
  | cons q qs ih =>
    intro x b hp hb
    cases x with
    | nil =>
      cases b with
      | nil => rfl
      | cons w bs =>
        show List.isPrefixOf (q :: qs) (w :: bs) = false
        simp only [List.isPrefixOf]
        rw [char_beq_false (hp q (by simp)) (hb w (by simp))]
        rfl
    | cons y xs =>
      show List.isPrefixOf (q :: qs) (y :: (xs ++ b)) = _
      simp only [List.isPrefixOf]
      rw [ih xs b (fun ch hch => hp ch (by simp [hch])) hb]

theorem containsP_allWS {c : Char} (cs : List Char) {b : List Char}
    (hc : ws c = false) (hb : ∀ ch ∈ b, ws ch = true) :
    containsP c cs b = false := by
  induction b with
  | nil => rfl
  | cons w bs ih =>
    simp only [containsP, List.isPrefixOf]
    rw [char_beq_false hc (hb w (by simp)),
      ih (fun ch hch => hb ch (by simp [hch]))]
    rfl

theorem containsP_append_left_ws {c : Char} (cs : List Char) {a x : List Char}
    (ha : ∀ ch ∈ a, ws ch = true) (hc : ws c = false) :
    containsP c cs (a ++ x) = containsP c cs x := by
  induction a with
  | nil => rfl
  | cons w tl ih =>
    show containsP c cs (w :: (tl ++ x)) = _
    simp only [containsP, List.isPrefixOf]
    rw [char_beq_false hc (ha w (by simp))]
    simp only [Bool.false_and, Bool.false_or]
    exact ih (fun ch hch => ha ch (by simp [hch]))

theorem containsP_append_right_ws {c : Char} {cs : List Char} {b : List Char}
    (hp : ∀ ch ∈ c :: cs, ws ch = false) (hb : ∀ ch ∈ b, ws ch = true) :
    ∀ x, containsP c cs (x ++ b) = containsP c cs x := by
  intro x
  induction x with
  | nil =>
    show containsP c cs b = containsP c cs []
    rw [containsP_allWS cs (hp c (by simp)) hb]
    rfl
  | cons y xs ih =>
    show containsP c cs ((y :: xs) ++ b) = _
    rw [List.cons_append]
    simp only [containsP]
    rw [show y :: (xs ++ b) = (y :: xs) ++ b from rfl,
      isPrefixOf_append_ws (c :: cs) (y :: xs) b hp hb]
    rw [show containsP c cs (xs ++ b) = containsP c cs xs from ih]

theorem replaceP_allWS {c : Char} (cs : List Char) {b : List Char}
    (hc : ws c = false) (hb : ∀ ch ∈ b, ws ch = true) :
    replaceP c cs b = b := by
  induction b with
  | nil => rfl
  | cons w bs ih =>
    rw [replaceP_cons]
    have : List.isPrefixOf (c :: cs) (w :: bs) = false := by
      simp only [List.isPrefixOf]
      rw [char_beq_false hc (hb w (by simp))]
      rfl
    rw [this]
    simp only [Bool.false_eq_true, if_false]
    rw [ih (fun ch hch => hb ch (by simp [hch]))]

theorem replaceP_append_left_ws {c : Char} (cs : List Char) {a x : List Char}
    (ha : ∀ ch ∈ a, ws ch = true) (hc : ws c = false) :
    replaceP c cs (a ++ x) = a ++ replaceP c cs x := by
  induction a with
  | nil => rfl
  | cons w tl ih =>
    rw [List.cons_append, replaceP_cons]
    have : List.isPrefixOf (c :: cs) (w :: (tl ++ x)) = false := by
      simp only [List.isPrefixOf]
      rw [char_beq_false hc (ha w (by simp))]
      rfl
    rw [this]
    simp only [Bool.false_eq_true, if_false]
    rw [ih (fun ch hch => ha ch (by simp [hch]))]
    rfl

theorem replaceP_append_right_ws {c : Char} {cs : List Char} {b : List Char}
    (hp : ∀ ch ∈ c :: cs, ws ch = false) (hb : ∀ ch ∈ b, ws ch = true) :
    ∀ x, replaceP c cs (x ++ b) = replaceP c cs x ++ b := by
  suffices H : ∀ n x, List.length x ≤ n →
      replaceP c cs (x ++ b) = replaceP c cs x ++ b by
    intro x; exact H x.length x le_rfl
  intro n
  induction n using Nat.strong_induction_on with
  | _ n ih =>
    intro x hx
    cases x with
    | nil =>
      show replaceP c cs b = replaceP c cs [] ++ b
      rw [replaceP_allWS cs (hp c (by simp)) hb, replaceP_nil]
      rfl
    | cons y xs =>
      rw [List.cons_append, replaceP_cons, replaceP_cons (t := xs)]
      rw [show y :: (xs ++ b) = (y :: xs) ++ b from rfl,
        isPrefixOf_append_ws (c :: cs) (y :: xs) b hp hb]
      by_cases hpref : List.isPrefixOf (c :: cs) (y :: xs) = true
      · rw [hpref]
        simp only [if_true]
        have hlen : cs.length ≤ xs.length := by
          have := List.IsPrefix.length_le (List.isPrefixOf_iff_prefix.mp hpref)
          simpa using this
        rw [List.drop_append_of_le_length hlen]
        cases n with
        | zero => simp at hx
        | succ n' =>
          refine ih n' (Nat.lt_succ_self n') _ ?_
          rw [List.length_drop]
          simp only [List.length_cons, Nat.succ_le_succ_iff] at hx
          omega
      · rw [Bool.not_eq_true] at hpref
        rw [hpref]
        simp only [Bool.false_eq_true, if_false]
        cases n with
        | zero => simp at hx
        | succ n' =>
          rw [ih n' (Nat.lt_succ_self n') xs
            (by simp only [List.length_cons, Nat.succ_le_succ_iff] at hx; omega)]
          rfl

theorem dropWhile_ws_append {a : List Char} (x : List Char)
    (ha : ∀ ch ∈ a, ws ch = true) :
    (a ++ x).dropWhile ws = x.dropWhile ws := by
  induction a with
  | nil => rfl
  | cons w tl ih =>
    rw [List.cons_append, List.dropWhile_cons]
    rw [ha w (by simp)]
    simp only [if_true]
    exact ih (fun ch hch => ha ch (by simp [hch]))

theorem head_dropWhile_ws :
    ∀ (l : List Char) {z : Char} {t : List Char},
      l.dropWhile ws = z :: t → ws z = false := by
  intro l
  induction l with
  | nil => intro z t h; exact List.noConfusion h
  | cons w tl ih =>
    intro z t h
    rw [List.dropWhile_cons] at h
    by_cases hw : ws w = true
    · rw [hw] at h
      simp only [if_true] at h
      exact ih h
    · rw [Bool.not_eq_true] at hw
      rw [hw] at h
      simp only [Bool.false_eq_true, if_false] at h
      cases h
      exact hw

theorem strip_append_left_ws {a : List Char} (x : List Char)
    (ha : ∀ ch ∈ a, ws ch = true) :
    strip (a ++ x) = strip x := by
  rw [strip, strip, dropWhile_ws_append x ha]

theorem strip_append_right_ws {b : List Char} (x : List Char)
    (hb : ∀ ch ∈ b, ws ch = true) :
    strip (x ++ b) = strip x := by
  by_cases hx : ∀ ch ∈ x, ws ch = true
  · have hxb : ∀ ch ∈ x ++ b, ws ch = true := by
      intro ch hch
      rcases List.mem_append.mp hch with h | h
      · exact hx ch h
      · exact hb ch h
    rw [strip, strip, List.dropWhile_eq_nil_iff.mpr hxb,
      List.dropWhile_eq_nil_iff.mpr hx]
  · have hx₁ : x.dropWhile ws ≠ [] := fun hcon =>
      hx (List.dropWhile_eq_nil_iff.mp hcon)
    obtain ⟨z, t, hzt⟩ : ∃ z t, x.dropWhile ws = z :: t := by
      cases hd : x.dropWhile ws with
      | nil => exact absurd hd hx₁
      | cons z t => exact ⟨z, t, rfl⟩
    have hz : ws z = false := head_dropWhile_ws x hzt
    have hsplit : x = x.takeWhile ws ++ (z :: t) := by
      rw [← hzt, List.takeWhile_append_dropWhile]
    have hdx : (x ++ b).dropWhile ws = z :: (t ++ b) := by
      conv_lhs => rw [hsplit]
      rw [List.append_assoc, dropWhile_ws_append _
        (fun ch hch => List.mem_takeWhile_imp hch)]
      rw [List.cons_append, List.dropWhile_cons, hz]
      simp
    rw [strip, strip, hdx, hzt]
    rw [show z :: (t ++ b) = (z :: t) ++ b from rfl, List.reverse_append]
    rw [dropWhile_ws_append _ (fun ch hch => hb ch (List.mem_reverse.mp hch))]

theorem strip_decomp (u : List Char) :
    ∃ a w b, u = a ++ (w ++ b) ∧ (∀ ch ∈ a, ws ch = true) ∧
      (∀ ch ∈ b, ws ch = true) ∧ strip u = w := by
  refine ⟨u.takeWhile ws,
    ((u.dropWhile ws).reverse.dropWhile ws).reverse,
    ((u.dropWhile ws).reverse.takeWhile ws).reverse, ?_, ?_, ?_, rfl⟩
  · conv_lhs => rw [← List.takeWhile_append_dropWhile (p := ws) (l := u)]
    congr 1
    conv_lhs => rw [← List.reverse_reverse (u.dropWhile ws),
      ← List.takeWhile_append_dropWhile (p := ws) (l := (u.dropWhile ws).reverse)]
    rw [List.reverse_append]
  · exact fun ch hch => List.mem_takeWhile_imp hch
  · exact fun ch hch => List.mem_takeWhile_imp (List.mem_reverse.mp hch)

theorem containsP_strip {c : Char} {cs : List Char}
    (hp : ∀ ch ∈ c :: cs, ws ch = false) (u : List Char) :
    containsP c cs (strip u) = containsP c cs u := by
  obtain ⟨a, w, b, hu, ha, hb, hs⟩ := strip_decomp u
  rw [hs]
  conv_rhs => rw [hu]
  rw [containsP_append_left_ws cs ha (hp c (by simp)),
    containsP_append_right_ws hp hb w]

theorem replaceP_strip {c : Char} {cs : List Char}
    (hp : ∀ ch ∈ c :: cs, ws ch = false) (u : List Char) :
    strip (replaceP c cs (strip u)) = strip (replaceP c cs u) := by
  obtain ⟨a, w, b, hu, ha, hb, hs⟩ := strip_decomp u
  rw [hs]
  conv_rhs => rw [hu]
  rw [replaceP_append_left_ws cs ha (hp c (by simp)),
    replaceP_append_right_ws hp hb w,
    strip_append_left_ws _ ha, strip_append_right_ws _ hb]

theorem replaceP2_strip {c₁ c₂ : Char} {cs₁ cs₂ : List Char}
    (hp₁ : ∀ ch ∈ c₁ :: cs₁, ws ch = false)
    (hp₂ : ∀ ch ∈ c₂ :: cs₂, ws ch = false) (u : List Char) :
    strip (replaceP c₂ cs₂ (replaceP c₁ cs₁ (strip u))) =
      strip (replaceP c₂ cs₂ (replaceP c₁ cs₁ u)) := by
  obtain ⟨a, w, b, hu, ha, hb, hs⟩ := strip_decomp u
  rw [hs]
  conv_rhs => rw [hu]
  rw [replaceP_append_left_ws cs₁ ha (hp₁ c₁ (by simp)),
    replaceP_append_right_ws hp₁ hb w,
    show a ++ (replaceP c₁ cs₁ w ++ b) = a ++ (replaceP c₁ cs₁ w ++ b) from rfl,
    replaceP_append_left_ws cs₂ ha (hp₂ c₂ (by simp)),
    replaceP_append_right_ws hp₂ hb (replaceP c₁ cs₁ w),
    strip_append_left_ws _ ha, strip_append_right_ws _ hb]

theorem padTo50_getD17
    (a₁ a₂ a₃ a₄ a₅ a₆ a₇ a₈ a₉ a₁₀ a₁₁ a₁₂ a₁₃ a₁₄ a₁₅ a₁₆ a₁₇ sc : ℚ) :
    (padTo [a₁, a₂, a₃, a₄, a₅, a₆, a₇, a₈, a₉, a₁₀, a₁₁, a₁₂, a₁₃, a₁₄,
      a₁₅, a₁₆, a₁₇, sc] 50).getD 17 0 = sc := rfl

/-- The inline time parsing of `extract_state_vector` agrees with
`parse_time` on every string whose lowercase form does not contain both
`min` and `hour` and does not contain `day` without one of them: on the
agreement region the two dispatch to the same branch, and stripping
commutes with the substring tests and removals. -/
theorem inlineTimeL_eq_parseTimeL (s : List Char)
    (h1 : ¬(containsP 'm' ['i', 'n'] (lowerL s) = true ∧
            containsP 'h' ['o', 'u', 'r'] (lowerL s) = true))
    (h2 : containsP 'd' ['a', 'y'] (lowerL s) = true →
          (containsP 'm' ['i', 'n'] (lowerL s) = true ∨
           containsP 'h' ['o', 'u', 'r'] (lowerL s) = true)) :
    inlineTimeL s = parseTimeL s := by
  have hpm : ∀ ch ∈ ('m' :: ['i', 'n']), ws ch = false := by decide
  have hph : ∀ ch ∈ ('h' :: ['o', 'u', 'r']), ws ch = false := by decide
  have hphs : ∀ ch ∈ ('h' :: ['o', 'u', 'r', 's']), ws ch = false := by decide
  have hpd : ∀ ch ∈ ('d' :: ['a', 'y']), ws ch = false := by decide
  have hM := containsP_strip hpm (lowerL s)
  have hH := containsP_strip hph (lowerL s)
  have hD := containsP_strip hpd (lowerL s)
  rw [inlineTimeL, parseTimeL]
  simp only [hM, hH, hD]
  by_cases cH : containsP 'h' ['o', 'u', 'r'] (lowerL s) = true
  · have cM : containsP 'm' ['i', 'n'] (lowerL s) = false := by
      cases hcm : containsP 'm' ['i', 'n'] (lowerL s)
      · rfl
      · exact absurd ⟨hcm, cH⟩ h1
    simp only [cM, cH, Bool.false_eq_true, if_false, if_true]
    rw [replaceP2_strip hphs hph (lowerL s)]
  · rw [Bool.not_eq_true] at cH
    by_cases cMt : containsP 'm' ['i', 'n'] (lowerL s) = true
    · simp only [cMt, cH, Bool.false_eq_true, if_false, if_true]
      rw [replaceP_strip hpm (lowerL s)]
    · rw [Bool.not_eq_true] at cMt
      have cD : containsP 'd' ['a', 'y'] (lowerL s) = false := by
        cases hcd : containsP 'd' ['a', 'y'] (lowerL s)
        · rfl
        · rcases h2 hcd with h | h
          · rw [cMt] at h; exact Bool.noConfusion h
          · rw [cH] at h; exact Bool.noConfusion h
      simp only [cMt, cH, cD, Bool.false_eq_true, if_false]

theorem processLine_write (rnow : String) (e : Experience) :
    processLine none none none rnow (some (expToJVal e)) = .keep e := rfl

theorem loadLoop_writeAll (rnow : String) (es : List Experience) :
    ∀ acc, loadLoop none none none none rnow
      (es.map (fun e => some (expToJVal e))) acc = .ok (acc ++ es) := by
  induction es with
  | nil => intro acc; simp [loadLoop]
  | cons e es ih =>
    intro acc
    rw [List.map_cons, loadLoop]
    simp only [limitHit, Bool.false_eq_true, if_false]
    simp only [processLine_write]
    rw [ih (acc ++ [e])]
    simp

theorem collectAll_eq (as : List CollectArgs) :
    ∀ file, collectAll as file =
      file ++ (as.map collect).map (fun e => some (expToJVal e)) := by
  induction as with
  | nil => intro file; simp [collectAll]
  | cons a as ih =>
    intro file
    have hstep : collectAll (a :: as) file =
        collectAll as (appendToBuffer (collect a) file) := rfl
    rw [hstep, ih, appendToBuffer]
    simp

theorem rewardFilter_keep (m : ℚ) (now : String) (fields : List (String × JVal))
    (e : Experience) (hm : m ≠ 0)
    (h : rewardFilterStep (some m) now fields = .keep e) :
    ∃ q, jAsNum e.reward = some q ∧ m ≤ q := by
  simp only [rewardFilterStep] at h
  rw [if_pos hm] at h
  cases hq : jAsNum ((objGet fields "reward").getD (.num 0)) <;> simp only [hq] at h
  · exact LineResult.noConfusion h
  case some q =>
    by_cases hlt : q < m
    · rw [if_pos hlt] at h
      exact LineResult.noConfusion h
    · rw [if_neg hlt] at h
      rw [reconstructLine] at h
      cases h₁ : objGet fields "state" <;> simp only [h₁] at h
      · exact LineResult.noConfusion h
      cases h₂ : objGet fields "action" <;> simp only [h₂] at h
      · exact LineResult.noConfusion h
      cases h₃ : objGet fields "reward" <;> simp only [h₃] at h
      · exact LineResult.noConfusion h
      cases h₄ : objGet fields "done" <;> simp only [h₄] at h
      · exact LineResult.noConfusion h
      injection h with he
      rw [h₃, Option.getD_some] at hq
      refine ⟨q, ?_, not_lt.mp hlt⟩
      rw [← he]
      exact hq

theorem loadLoop_minReward (m : ℚ) (hm : m ≠ 0) (now : String) :
    ∀ (lines : List (Option JVal)) (acc res : List Experience),
      (∀ e ∈ acc, ∃ q, jAsNum e.reward = some q ∧ m ≤ q) →
      loadLoop none none none (some m) now lines acc = .ok res →
      ∀ e ∈ res, ∃ q, jAsNum e.reward = some q ∧ m ≤ q := by
  intro lines
  induction lines with
  | nil =>
    intro acc res hacc h
    injection h with h'
    exact h' ▸ hacc
  | cons line rest ih =>
    intro acc res hacc h
    rw [loadLoop] at h
    simp only [limitHit, Bool.false_eq_true, if_false] at h
    cases hpl : processLine none none (some m) now line <;> simp only [hpl] at h
    case err => exact Except.noConfusion h
    case skip => exact ih acc res hacc h
    case keep e =>
      refine ih (acc ++ [e]) res ?_ h
      intro x hx
      rcases List.mem_append.mp hx with hx | hx
      · exact hacc x hx
      · rw [List.mem_singleton] at hx
        subst hx
        cases line with
        | none => exact LineResult.noConfusion hpl
        | some v =>
          cases v with
          | obj fields => exact rewardFilter_keep m now fields x hm hpl
          | null => exact LineResult.noConfusion hpl
          | bool b => exact LineResult.noConfusion hpl
          | num q => exact LineResult.noConfusion hpl
          | str s => exact LineResult.noConfusion hpl
          | arr xs => exact LineResult.noConfusion hpl

theorem includedLineSpec_eq_processLine (now : String) (line : Option JVal) :
    includedLineSpec now line =
      (match processLine none none none now line with
       | .keep e => some e
       | _ => none) := by
  cases line with
  | none => rfl
  | some v =>
    cases v with
    | obj fields =>
      simp only [includedLineSpec, processLine, taskFilterStep,
        domainFilterStep, rewardFilterStep, reconstructLine]
      cases objGet fields "state" <;> cases objGet fields "action" <;>
        cases objGet fields "reward" <;> cases objGet fields "done" <;> rfl
    | null => rfl
    | bool b => rfl
    | num q => rfl
    | str s => rfl
    | arr xs => rfl

theorem loadLoop_noFilter (now : String) :
    ∀ (lines : List (Option JVal)) (acc res : List Experience),
      loadLoop none none none none now lines acc = .ok res →
      res = acc ++ lines.filterMap (includedLineSpec now) := by
  intro lines
  induction lines with
  | nil =>
    intro acc res h
    injection h with h'
    simp [h'.symm]
  | cons line rest ih =>
    intro acc res h
    rw [loadLoop] at h
    simp only [limitHit, Bool.false_eq_true, if_false] at h
    rw [List.filterMap_cons, includedLineSpec_eq_processLine]
    cases hpl : processLine none none none now line <;> simp only [hpl] at h
    case err => exact Except.noConfusion h
    case skip => simpa using ih acc res h
    case keep e =>
      have := ih (acc ++ [e]) res h
      simpa [List.append_assoc] using this

/-! ## Claim theorems -/

/-- C1: for every outcome and context, `compute_reward_from_outcome`
returns the sum of the seven additive terms exactly as specified: ±100 on
success/failure; on success only, `min(estimated / max(actual, 1), 2) * 20`
with `estimated = parse_time(context.estimated_time, default "1 hour")` and
`actual` defaulting to `estimated`; +10 / −5-per-excess on resources;
+15 / −10-per-error; +10 / −5-per-modification; +10 / −50 on safety;
plus `confidence (default 0.5) * 5`. -/
theorem compute_reward_seven_terms (o : Outcome) (c : Context) (est : ℚ)
    (hp : parse_time ((c.estimated_time).getD "1 hour") = some est) :
    compute_reward_from_outcome o c = some (
      (if o.success then (100 : ℚ) else -100)
      + (if o.success then min (est / max ((o.actual_time).getD est) 1) 2 * 20 else 0)
      + (if ((o.resources_used.length : ℚ)) ≤ (o.minimum_resources).getD o.resources_used.length
         then 10
         else -5 * ((o.resources_used.length : ℚ) - (o.minimum_resources).getD o.resources_used.length))
      + (if (o.error_count).getD 0 = 0 then 15 else -10 * (o.error_count).getD 0)
      + (if (o.user_modifications).getD 0 = 0 then 10 else -5 * (o.user_modifications).getD 0)
      + (if o.safety_violations then -50 else 10)
      + ((c.confidence).getD (1 / 2)) * 5) := by
  cases hs : o.success <;> cases hv : o.safety_violations <;>
    simp only [compute_reward_from_outcome, hs, hv, hp, Option.bind_eq_bind,
      Option.some_bind, Bool.not_true, Bool.not_false, if_true, if_false,
      Option.some.injEq, Bool.false_eq_true, Bool.true_eq_false] <;>
    split_ifs <;>
    simp only [Option.pure_def, Option.some_bind, Option.some.injEq] <;> ring

/-- C1 witness: a successful outcome with every optional field absent. -/
theorem compute_reward_seven_terms_witness :
    parse_time ((Context.mk none none).estimated_time.getD "1 hour") = some 60 ∧
    compute_reward_from_outcome ⟨true, none, [], none, none, none, false⟩
      ⟨none, none⟩ = some (335 / 2) := by
  constructor
  · with_unfolding_all decide
  · rw [compute_reward_seven_terms ⟨true, none, [], none, none, none, false⟩
      ⟨none, none⟩ 60 (by with_unfolding_all decide)]
    with_unfolding_all decide

/-- C2: `parse_time` is claimed total, but the branch for strings
containing `min` applies `float` to the remaining text and raises
`ValueError` when that text is not numeric: `parse_time("abc min")`
raises (modelled as `none`). -/
theorem parse_time_raises_on_nonnumeric :
    parse_time "abc min" = none ∧ parse_time "an hour" = none := by
  constructor <;> with_unfolding_all decide

/-- C6 counterexample: on a one-element list with the default validation
fraction 0.2, `n_val = int(1 * 0.2) = 0`, and `experiences[:-0]` is the
EMPTY list while `experiences[-0:]` is the whole list — the opposite of
the claimed prefix of `len - floor(len*f) = 1` elements and suffix of
`floor(len*f) = 0` elements. -/
theorem trainValSplit_claim_false_at_singleton :
    trainValSplit [(0 : ℕ)] (1 / 5) = ([], [0]) ∧
    ¬ trainValSplit [(0 : ℕ)] (1 / 5) = ([0], []) := by
  constructor <;> with_unfolding_all decide

/-- C6 (amended): when `n_val = int(len * f)` is at least 1 and at most
`len`, the split is positional as claimed: the training part is the first
`len - n_val` elements, the validation part the last `n_val` elements, and
together they recompose the list. -/
theorem trainValSplit_positional (xs : List α) (f : ℚ)
    (h1 : 1 ≤ pyInt ((xs.length : ℚ) * f))
    (h2 : pyInt ((xs.length : ℚ) * f) ≤ (xs.length : ℤ)) :
    (trainValSplit xs f).1 =
      xs.take (xs.length - (pyInt ((xs.length : ℚ) * f)).toNat) ∧
    (trainValSplit xs f).2 =
      xs.drop (xs.length - (pyInt ((xs.length : ℚ) * f)).toNat) ∧
    (trainValSplit xs f).1 ++ (trainValSplit xs f).2 = xs ∧
    ((trainValSplit xs f).2).length = (pyInt ((xs.length : ℚ) * f)).toNat := by
  have hneg : ¬ (0 : ℤ) ≤ -(pyInt ((xs.length : ℚ) * f)) := by omega
  have ht : (trainValSplit xs f).1 =
      xs.take (xs.length - (pyInt ((xs.length : ℚ) * f)).toNat) := by
    simp only [trainValSplit, pySliceTo, hneg, if_false, neg_neg]
  have hd : (trainValSplit xs f).2 =
      xs.drop (xs.length - (pyInt ((xs.length : ℚ) * f)).toNat) := by
    simp only [trainValSplit, pySliceFrom, hneg, if_false, neg_neg]
  refine ⟨ht, hd, ?_, ?_⟩
  · rw [ht, hd]; exact List.take_append_drop _ xs
  · rw [hd, List.length_drop]; omega

/-- C6 witness: five elements with fraction 0.2 give `n_val = 1`. -/
theorem trainValSplit_positional_witness :
    (1 ≤ pyInt (((([(0 : ℕ), 1, 2, 3, 4]).length : ℚ)) * (1 / 5))) ∧
    (trainValSplit [(0 : ℕ), 1, 2, 3, 4] (1 / 5)).1 = [0, 1, 2, 3] ∧
    (trainValSplit [(0 : ℕ), 1, 2, 3, 4] (1 / 5)).2 = [4] := by
  have h := trainValSplit_positional [(0 : ℕ), 1, 2, 3, 4] (1 / 5)
    (by with_unfolding_all decide) (by with_unfolding_all decide)
  refine ⟨by with_unfolding_all decide, ?_, ?_⟩
  · rw [h.1]; with_unfolding_all decide
  · rw [h.2.1]; with_unfolding_all decide

/-- C4 counterexample: with threshold `m = 0`, Python's
`if min_reward and ...` treats the filter as absent, so a record with
reward −5 (below the threshold) is returned. -/
theorem load_min_reward_zero_inactive :
    load_experiences none none none (some 0) "T"
        [some (.obj [("state", .null), ("action", .null),
          ("reward", .num (-5)), ("done", .bool true)])] =
      .ok [⟨.null, .null, .num (-5), .null, .bool true, .obj [], .str "T"⟩] ∧
    ((-5 : ℚ) < 0) := by
  exact ⟨rfl, by norm_num⟩

/-- C4 (amended): for every NONZERO numeric threshold `m`, every record
returned by `load_experiences(min_reward=m)` has a numeric reward at least
`m`; the threshold 0 is falsy in Python and disables the filter. -/
theorem load_min_reward_ge (lines : List (Option JVal)) (m : ℚ) (now : String)
    (res : List Experience) (hm : m ≠ 0)
    (h : load_experiences none none none (some m) now lines = .ok res) :
    ∀ e ∈ res, ∃ q, jAsNum e.reward = some q ∧ m ≤ q :=
  loadLoop_minReward m hm now lines [] res (by simp) h

/-- C4 witness: threshold 50 keeps the reward-100 record and drops the
reward-10 record. -/
theorem load_min_reward_ge_witness :
    ((50 : ℚ) ≠ 0) ∧
    (load_experiences none none none (some 50) "T"
        [some (.obj [("state", .null), ("action", .null),
           ("reward", .num 100), ("done", .bool true)]),
         some (.obj [("state", .null), ("action", .null),
           ("reward", .num 10), ("done", .bool true)])] =
       .ok [⟨.null, .null, .num 100, .null, .bool true, .obj [], .str "T"⟩]) ∧
    ∀ e ∈ [(⟨.null, .null, .num 100, .null, .bool true, .obj [], .str "T"⟩ : Experience)],
      ∃ q, jAsNum e.reward = some q ∧ (50 : ℚ) ≤ q := by
  refine ⟨by norm_num, rfl, ?_⟩
  exact load_min_reward_ge
    [some (.obj [("state", .null), ("action", .null),
       ("reward", .num 100), ("done", .bool true)]),
     some (.obj [("state", .null), ("action", .null),
       ("reward", .num 10), ("done", .bool true)])]
    50 "T" _ (by norm_num) rfl

/-- C8: appending N experiences through `collect` to an empty buffer and
loading with no filters returns exactly the N collected records — every
field (state, action, reward, next_state, done, metadata, timestamp) equal
to the constructed record — in insertion order. -/
theorem store_round_trip (as : List CollectArgs) (rnow : String) :
    load_experiences none none none none rnow (collectAll as []) =
      .ok (as.map collect) ∧
    (as.map collect).length = as.length := by
  constructor
  · rw [load_experiences, collectAll_eq]
    simpa using loadLoop_writeAll rnow (as.map collect) []
  · simp

/-- C10: with no filters, `load_experiences` returns exactly the lines
that parse to a dict carrying the four required keys `state`, `action`,
`reward`, `done` (any other line is skipped), and a kept line missing
`next_state`, `metadata` or `timestamp` is loaded with defaults null,
empty mapping, and the load-time clock value. -/
theorem load_no_filters_spec (lines : List (Option JVal)) (now : String)
    (res : List Experience)
    (h : load_experiences none none none none now lines = .ok res) :
    res = lines.filterMap (includedLineSpec now) := by
  simpa using loadLoop_noFilter now lines [] res h

/-- C10 witness: a complete line, an unparsable line, and a line missing
`state`; only the first is kept, with defaulted optional fields. -/
theorem load_no_filters_spec_witness :
    (load_experiences none none none none "T"
        [some (.obj [("state", .num 1), ("action", .num 2),
           ("reward", .num 3), ("done", .bool true)]),
         none,
         some (.obj [("action", .num 9)])] =
      .ok [⟨.num 1, .num 2, .num 3, .null, .bool true, .obj [], .str "T"⟩]) ∧
    [(⟨.num 1, .num 2, .num 3, .null, .bool true, .obj [], .str "T"⟩ : Experience)] =
      ([some (.obj [("state", .num 1), ("action", .num 2),
          ("reward", .num 3), ("done", .bool true)]),
        none,
        some (.obj [("action", .num 9)])] : List (Option JVal)).filterMap
        (includedLineSpec "T") := by
  exact ⟨rfl, load_no_filters_spec _ "T" _ rfl⟩

/-- C3 counterexample: for "1 day" the inline parser of
`extract_state_vector` (which has no `day` branch) yields 60 while
`parse_time` yields 480, so the state-vector scalar is
`min(60/480, 1) = 1/8` instead of the claimed `min(480/480, 1) = 1`. -/
theorem inline_time_day_mismatch :
    inlineParseTime "1 day" = some 60 ∧
    parse_time "1 day" = some 480 ∧
    (extract_state_vector ⟨.null, .null, .num 0, .null, .bool true,
      .obj [("estimated_time", .str "1 day")], .str "t"⟩).map
        (fun v => v.getD 17 0) = some (1 / 8) ∧
    min ((480 : ℚ) / 480) 1 = 1 ∧ ((1 : ℚ) / 8 ≠ 1) := by
  refine ⟨?_, ?_, ?_, ?_, ?_⟩
  · with_unfolding_all decide
  · with_unfolding_all decide
  · with_unfolding_all decide
  · norm_num
  · norm_num

/-- C3 (amended): the inline minutes value computed in
`extract_state_vector` equals `parse_time` of the same string — and hence
the state-vector scalar equals `min(parse_time(estimated_time)/480, 1)` —
for every `estimated_time` string whose lowercase form does not contain
both `min` and `hour`, and does not contain `day` unless it also contains
`min` or `hour` (on `day`-only strings the inline parser falls back to 60,
and when both `min` and `hour` occur the two parsers pick different
branches). -/
theorem inline_time_matches_parse_time (s : String)
    (h1 : ¬(containsP 'm' ['i', 'n'] (lowerL s.data) = true ∧
            containsP 'h' ['o', 'u', 'r'] (lowerL s.data) = true))
    (h2 : containsP 'd' ['a', 'y'] (lowerL s.data) = true →
          (containsP 'm' ['i', 'n'] (lowerL s.data) = true ∨
           containsP 'h' ['o', 'u', 'r'] (lowerL s.data) = true)) :
    inlineParseTime s = parse_time s ∧
    ∀ e mf v tm, e.metadata = .obj mf →
      objGet mf "estimated_time" = some (.str s) →
      extract_state_vector e = some v →
      parse_time s = some tm →
      v.getD 17 0 = min (tm / 480) 1 := by
  have hmain : inlineParseTime s = parse_time s :=
    inlineTimeL_eq_parseTimeL s.data h1 h2
  refine ⟨hmain, ?_⟩
  intro e mf v tm hm hobj hv hpt
  obtain ⟨tm', hsh, hinl⟩ := extract_state_vector_shape e mf hm v hv
  have hsome : parse_time s = some tm' := by
    rw [← hmain]
    exact hinl s (by rw [hobj]; rfl)
  have htm : tm = tm' := by
    injection (hpt.symm.trans hsome)
  subst htm
  rw [hsh]
  exact padTo50_getD17 _ _ _ _ _ _ _ _ _ _ _ _ _ _ _ _ _ _

/-- C3 witness: "2 hours" lies in the agreement region and both parsers
give 120 minutes. -/
theorem inline_time_matches_parse_time_witness :
    (¬(containsP 'm' ['i', 'n'] (lowerL "2 hours".data) = true ∧
       containsP 'h' ['o', 'u', 'r'] (lowerL "2 hours".data) = true)) ∧
    inlineParseTime "2 hours" = parse_time "2 hours" ∧
    parse_time "2 hours" = some 120 := by
  refine ⟨by decide, ?_, by with_unfolding_all decide⟩
  exact (inline_time_matches_parse_time "2 hours" (by decide)
    (by decide)).1

/-- C5 counterexample: the state-vector extraction is not total — an
`estimated_time` mentioning `hour` with a non-numeric value makes the
inline `float` call raise `ValueError`. -/
theorem extract_state_vector_raises :
    extract_state_vector ⟨.null, .null, .num 0, .null, .bool true,
      .obj [("estimated_time", .str "about an hour")], .str "t"⟩ = none := by
  with_unfolding_all decide

/-- C5 (amended): both encoders produce exactly 50 / 30 elements whenever
they return, and they do return — unknown categorical values degrading to
all-zero or default-index blocks — provided the metadata is a mapping
whose `estimated_time` (defaulted) parses and whose `skills_used` (after
domain inference) and `agents_used` support membership tests; an
unparsable time string or non-container value makes them raise instead. -/
theorem extract_vectors_lengths :
    (∀ e v, extract_state_vector e = some v → v.length = 50) ∧
    (∀ e v, extract_action_vector e = some v → v.length = 30) ∧
    (∀ e mf, e.metadata = .obj mf →
      strTimeParses ((objGet mf "estimated_time").getD (.str "1 hour")) →
      (extract_state_vector e).isSome) ∧
    (∀ e mf, e.metadata = .obj mf →
      memOK (skillsUsedEffective mf) →
      memOK ((objGet mf "agents_used").getD (.arr [])) →
      (extract_action_vector e).isSome) := by
  refine ⟨?_, ?_, ?_, ?_⟩
  · intro e v hv
    cases hm : e.metadata with
    | obj mf =>
      obtain ⟨tm, hsh, -⟩ := extract_state_vector_shape e mf hm v hv
      rw [hsh, padTo_length]
    | null => simp [extract_state_vector, hm] at hv
    | bool b => simp [extract_state_vector, hm] at hv
    | num q => simp [extract_state_vector, hm] at hv
    | str s => simp [extract_state_vector, hm] at hv
    | arr xs => simp [extract_state_vector, hm] at hv
  · intro e v hv
    obtain ⟨f₁, f₂, -, -, idx, hsh⟩ := extract_action_vector_shape e v hv
    rw [hsh, padTo_length]
  · intro e mf hm hts
    simp only [extract_state_vector, hm, Option.bind_eq_bind, Option.some_bind]
    cases hv' : (objGet mf "estimated_time").getD (.str "1 hour") <;>
      rw [hv'] at hts <;> try exact hts.elim
    case str s =>
      cases hpt : inlineParseTime s
      · rw [strTimeParses, hpt] at hts
        simp at hts
      · simp [hpt]
  · intro e mf hm h₁ h₂
    simp only [extract_action_vector, hm, Option.bind_eq_bind, Option.some_bind]
    have hm₁ := mapOpt_isSome
      (fun s => (jMem s (skillsUsedEffective mf)).map (fun b => if b then (1 : ℚ) else 0))
      all_skills (fun s _ => by
        have hj := jMem_isSome s _ h₁
        cases hjm : jMem s (skillsUsedEffective mf)
        · rw [hjm] at hj; simp at hj
        · simp [hjm])
    have hm₂ := mapOpt_isSome
      (fun s => (jMem s ((objGet mf "agents_used").getD (.arr []))).map
        (fun b => if b then (1 : ℚ) else 0))
      all_agents (fun s _ => by
        have hj := jMem_isSome s _ h₂
        cases hjm : jMem s ((objGet mf "agents_used").getD (.arr []))
        · rw [hjm] at hj; simp at hj
        · simp [hjm])
    cases hx₁ : mapOpt (fun s => (jMem s (skillsUsedEffective mf)).map
        (fun b => if b then (1 : ℚ) else 0)) all_skills
    · rw [hx₁] at hm₁; simp at hm₁
    · cases hx₂ : mapOpt (fun s => (jMem s ((objGet mf "agents_used").getD (.arr []))).map
          (fun b => if b then (1 : ℚ) else 0)) all_agents
      · rw [hx₂] at hm₂; simp at hm₂
      · simp [hx₁, hx₂]

/-- C5 witness: an empty metadata mapping. -/
theorem extract_vectors_lengths_witness :
    (extract_state_vector ⟨.null, .null, .num 0, .null, .bool true, .obj [], .str "t"⟩).isSome ∧
    (extract_action_vector ⟨.null, .null, .num 0, .null, .bool true, .obj [], .str "t"⟩).isSome ∧
    ∀ v, extract_state_vector ⟨.null, .null, .num 0, .null, .bool true, .obj [], .str "t"⟩ = some v →
      v.length = 50 := by
  refine ⟨?_, ?_, fun v hv => extract_vectors_lengths.1 _ v hv⟩
  · exact extract_vectors_lengths.2.2.1 _ [] rfl
      (show (inlineParseTime "1 hour").isSome = true by with_unfolding_all decide)
  · exact extract_vectors_lengths.2.2.2 _ [] rfl True.intro True.intro

/-- C9: a metadata mapping lacking the `task_type` key one-hot encodes the
default `feature` (index 0), and one lacking the `domain` key one-hot
encodes the default `backend` (index 1) — a default one-hot block, not the
all-zero block an unknown value produces. -/
theorem state_vector_default_oneHot (e : Experience) (mf : List (String × JVal))
    (v : List ℚ) (hm : e.metadata = .obj mf)
    (ht : objGet mf "task_type" = none)
    (hd : objGet mf "domain" = none)
    (hv : extract_state_vector e = some v) :
    v.take 6 = [1, 0, 0, 0, 0, 0] ∧ (v.drop 6).take 5 = [0, 1, 0, 0, 0] := by
  obtain ⟨tm, hsh, -⟩ := extract_state_vector_shape e mf hm v hv
  rw [ht, hd] at hsh
  simp only [Option.getD_none] at hsh
  have e₁ : oneHotEq (.str "feature") task_types = [1, 0, 0, 0, 0, 0] := rfl
  have e₂ : oneHotEq (.str "backend") domains = [0, 1, 0, 0, 0] := rfl
  rw [e₁, e₂] at hsh
  rw [hsh]
  exact ⟨padTo50_take6 1 0 0 0 0 0 _, padTo50_drop6_take5 1 0 0 0 0 0 0 1 0 0 0 _⟩

/-- C9 witness: the empty metadata mapping lacks both keys. -/
theorem state_vector_default_oneHot_witness :
    extract_state_vector ⟨.null, .null, .num 0, .null, .bool true, .obj [], .str "t"⟩ =
      some ([1, 0, 0, 0, 0, 0, 0, 1, 0, 0, 0, 0, 1, 0, 1, 0, 0, 1 / 8] ++ List.replicate 32 0) ∧
    (([1, 0, 0, 0, 0, 0, 0, 1, 0, 0, 0, 0, 1, 0, 1, 0, 0, (1 : ℚ) / 8] ++ List.replicate 32 0).take 6 =
      [1, 0, 0, 0, 0, 0]) := by
  have hv : extract_state_vector ⟨.null, .null, .num 0, .null, .bool true, .obj [], .str "t"⟩ =
      some ([1, 0, 0, 0, 0, 0, 0, 1, 0, 0, 0, 0, 1, 0, 1, 0, 0, 1 / 8] ++ List.replicate 32 0) := by
    with_unfolding_all decide
  exact ⟨hv, (state_vector_default_oneHot _ [] _ rfl rfl rfl hv).1⟩

end Orchestra
